import Mathlib

/-!
Verification of the birthday-equation engine
(`src/advanced_birthday_equation.py`, `src/birthday_equation.py`).

The Python code is shallowly embedded as follows.

* A digit sequence is a `List ℕ` of single decimal digits (the Python
  code stores `int` digits extracted with a regular expression).
* Python's arbitrary-precision integers and its floats are idealized as
  exact rationals (`ℚ`).  A finite real float whose exact value results
  from an inexact operation (a non-trivial `root`, i.e. a fractional
  power) is modelled by the value `PyVal.irr r`, where `r : RVal`
  records symbolically the computation that produced the float; a
  complex value (Python 3 returns a complex number for a negative real
  raised to a fractional power) is modelled by the abstract value
  `PyVal.cplx`.  These values track exactly the information the
  evaluator's control flow inspects (`isinstance` checks and the
  `float(...)` conversion, which raises `TypeError` on a complex
  argument); the only place the *magnitude* of an inexact float is
  consulted is the tolerance comparison of the matchers, which is
  therefore parameterized by an arbitrary oracle
  `Oracle : RVal → RVal → ℚ → Bool` deciding such comparisons — the
  floating-point comparison actually performed by the interpreter is
  one instantiation, so a theorem quantified over every oracle covers
  the program's run.
* The candidate expression strings that the Python code assembles and
  passes to `eval` are modelled as abstract syntax trees (`PyExpr`)
  built by mirroring the string-construction code; flat operator
  chains are parsed with Python's precedence (`**` right-associative
  and binding tighter than `*`, `/`, which bind tighter than `+`, `-`)
  by `attachOp`, and a `root(...)` call collapses the running
  expression into an atom exactly as the string wrapping does.
* Exceptions are modelled by `Except PyExc`; the tuples of exception
  classes caught by the two evaluators are reproduced exactly
  (the advanced `safe_eval` does not catch `TypeError`).
* Recursion over a shrinking string suffix uses an explicit fuel
  argument (`fuel` is always at least the length of the remaining
  suffix at every call site, so the fuel-exhaustion branch is dead
  code); this keeps every definition structurally recursive and
  kernel-computable.
-/

/-! ### Decimal digit expansions

`decDigits n` is the list of decimal digits of `n`, most significant
first, matching the characters of Python's `str(n)` for `n ≥ 0`
(`decDigits 0 = [0]`, mirroring `str(0) = "0"`). -/

/-- Little-endian decimal digits of `n`, with explicit fuel
(`[]` for `n = 0`). -/
def decDigitsAux : ℕ → ℕ → List ℕ
  | 0, _ => []
  | fuel + 1, n => if n = 0 then [] else n % 10 :: decDigitsAux fuel (n / 10)

/-- Big-endian decimal digits of `n`, as written by Python's `str`. -/
def decDigits (n : ℕ) : List ℕ :=
  if n = 0 then [0] else (decDigitsAux n n).reverse

/-! ### Partition generator (`generate_digit_partitions`) -/

/-- Numeric value of a chunk of decimal digits, most significant first:
`int(s[start:start+length])` in the Python code. -/
def chunkVal (c : List ℕ) : ℕ :=
  c.foldl (fun a d => 10 * a + d) 0

/-- The recursive backtracking search `generate_splits` of
`generate_digit_partitions` (src/advanced_birthday_equation.py,
lines 47-75), phrased over the remaining suffix `rest` of the digit
string with `curLen` chunks already taken.  The two pruning tests and
the `next_num > 9999` test are taken verbatim from the source (the
pruning arithmetic is done in `ℤ`, as Python's `int` arithmetic can go
negative there).  `fuel` only drives the recursion; every call keeps
`rest.length ≤ fuel`. -/
def splitsFrom (maxGroups : ℕ) : ℕ → List ℕ → ℕ → List (List ℕ)
  | 0, _, _ => []
  | _ + 1, [], curLen =>
      -- start_pos == len(s): keep the partition when 2 ≤ count ≤ maxGroups
      if 2 ≤ curLen ∧ curLen ≤ maxGroups then [[]] else []
  | fuel + 1, d :: ds, curLen =>
      (List.range (min 4 (d :: ds).length)).flatMap (fun i =>
        let len := i + 1
        let remaining := (d :: ds).length - len
        let curGroups := curLen + 1
        if 0 < remaining ∧ (maxGroups : ℤ) - curGroups < 1 then []
        else if (remaining : ℤ) > ((maxGroups : ℤ) - curGroups) * 4 then []
        else
          let nextNum := chunkVal ((d :: ds).take len)
          if nextNum > 9999 then []
          else (splitsFrom maxGroups fuel ((d :: ds).drop len) curGroups).map
            (fun p => nextNum :: p))

/-- Deduplication preserving first occurrences (the `seen` set of
src/advanced_birthday_equation.py, lines 90-98). -/
def dedupKeepFirst (l : List (List ℕ)) : List (List ℕ) :=
  l.foldl (fun acc p => if p ∈ acc then acc else acc ++ [p]) []

/-- Sort key comparison for partitions:
`key(p) = (len(p), -sum(1 for x in p if x > 9))`, compared
lexicographically (src/advanced_birthday_equation.py, line 101). -/
def partKeyLe (p q : List ℕ) : Bool :=
  p.length < q.length ∨
    (p.length = q.length ∧
      -((p.countP (fun x => 9 < x)) : ℤ) ≤ -((q.countP (fun x => 9 < x)) : ℤ))

/-- Stable insertion of `x` into an already sorted list, placing `x`
after every element whose key is less than or equal. -/
def insertStable (le : List ℕ → List ℕ → Bool) (x : List ℕ) :
    List (List ℕ) → List (List ℕ)
  | [] => [x]
  | y :: ys => if le y x then y :: insertStable le x ys else x :: y :: ys

/-- Stable ascending sort (Python's `list.sort` is a stable sort; the
exact algorithm is irrelevant to every claim, only stability and the
key). -/
def sortStable (le : List ℕ → List ℕ → Bool) (l : List (List ℕ)) :
    List (List ℕ) :=
  l.foldl (fun acc x => insertStable le x acc) []

/-- Model of `generate_digit_partitions` (src/advanced_birthday_equation.py,
lines 30-103): the backtracking split search, the always-appended
all-single-digit partition, the three hand-authored date-shaped
partitions for 8-digit inputs, deduplication and the diversity sort. -/
def generate_digit_partitions (digits : List ℕ) (maxGroups : ℕ) :
    List (List ℕ) :=
  if digits.length ≤ 1 then [digits]
  else
    let base := splitsFrom maxGroups digits.length digits 0
    let withTrivial := base ++ [digits]
    let withDates := withTrivial ++
      (if digits.length = 8 then
        [[chunkVal (digits.take 2), chunkVal ((digits.drop 2).take 2),
            chunkVal (digits.drop 4)],
         [chunkVal (digits.take 1), chunkVal ((digits.drop 1).take 2),
            chunkVal ((digits.drop 3).take 2), chunkVal (digits.drop 5)],
         [chunkVal (digits.take 1), chunkVal ((digits.drop 1).take 3),
            chunkVal (digits.drop 4)]]
       else [])
    sortStable partKeyLe (dedupKeepFirst withDates)

/-! ### Values, exceptions, operators, tokens, expressions -/

/-- Symbolic record of a numeric computation whose floating-point
result is inexact: the exact operands and operations are kept
(`rat q` embeds an exact value, `rroot a b` is the call
`float(a) ** (1.0 / float(b))`, the other constructors are the binary
operators), so that the actual float produced by the interpreter is a
well-defined function of the record.  The evaluator's control flow
never inspects the magnitude of an inexact float; the one place a
magnitude is consulted — the tolerance test of the matchers — is
parameterized by an oracle over these records (`Oracle` below). -/
inductive RVal where
  | rat (q : ℚ)
  | radd (a b : RVal)
  | rsub (a b : RVal)
  | rmul (a b : RVal)
  | rdiv (a b : RVal)
  | rpow (a b : RVal)
  | rroot (a b : RVal)
  deriving DecidableEq, Repr

/-- Result values of Python's evaluation, idealized.  `num q` is an
exact integer or float value (Python ints are exact; float rounding is
idealized away).  `irr r` is a finite real float produced by an
inexact fractional power, carrying the symbolic record `r` of the
computation that produced it (the float itself is a function of `r`).
`cplx` abstracts a complex value (Python 3 returns a complex number
when a negative real is raised to a non-integral power). -/
inductive PyVal where
  | num (q : ℚ)
  | irr (r : RVal)
  | cplx
  deriving DecidableEq, Repr

/-- Embedding of a non-complex value into the symbolic records. -/
def rv : PyVal → RVal
  | .num q => .rat q
  | .irr r => r
  | .cplx => .rat 0

/-- The exception classes that can arise while evaluating a candidate
expression. -/
inductive PyExc where
  | zeroDiv
  | overflow
  | valueErr
  | typeErr
  | synErr
  deriving DecidableEq, Repr

/-- The operator set `OPERATORS = ['+', '-', '*', '/', '^', 'root']`
shared by both generators. -/
inductive PyOp where
  | add
  | sub
  | mul
  | div
  | pow
  | root
  deriving DecidableEq, Repr

/-- A token: either a plain numeric literal or a factorial literal
`fact(n)` (the two textual variants offered per operand). -/
inductive Tok where
  | plain (n : ℕ)
  | factT (n : ℕ)
  deriving DecidableEq, Repr

/-- Abstract syntax of the candidate expression strings fed to `eval`.
`paren` marks an explicitly parenthesized sub-expression (atomic for
precedence parsing, transparent for evaluation); `rootCall e t` is the
function-call text `root(e, t)`; `factApp n` is the literal text
`fact(n)`. -/
inductive PyExpr where
  | lit (n : ℕ)
  | factApp (n : ℕ)
  | paren (e : PyExpr)
  | bin (op : PyOp) (l r : PyExpr)
  | rootCall (a b : PyExpr)
  deriving DecidableEq, Repr

/-- The expression atom for a token. -/
def tokE : Tok → PyExpr
  | .plain n => .lit n
  | .factT n => .factApp n

/-! ### Precedence parsing of flat operator chains

The Python code builds a flat string `t0 op0 t1 op1 t2 ...` (with `^`
written as `**`) and later parses it with `eval`; `attachOp e op t`
computes the parse tree of the extended string from the parse tree `e`
of the prefix, descending the right spine while the new operator binds
tighter (or equally tight for the right-associative `**`). -/

/-- Python precedence levels of the binary operators appearing in the
generated strings (`**` > `*`, `/` > `+`, `-`). -/
def opPrec : PyOp → ℕ
  | .add => 1
  | .sub => 1
  | .mul => 2
  | .div => 2
  | .pow => 3
  | .root => 0

/-- Only `**` is right-associative. -/
def opRightAssoc : PyOp → Bool
  | .pow => true
  | _ => false

/-- Attach `op t` to the parse tree `e` of the string built so far,
respecting Python's precedence and associativity. -/
def attachOp (e : PyExpr) (op : PyOp) (t : PyExpr) : PyExpr :=
  match e with
  | .bin op' l r =>
      if opPrec op' < opPrec op ∨ (opPrec op' = opPrec op ∧ opRightAssoc op) then
        .bin op' l (attachOp r op t)
      else
        .bin op (.bin op' l r) t
  | e => .bin op e t

/-! ### The sandboxed evaluator (`safe_eval` and its helpers) -/

/-- Truncation of a rational toward zero: Python's `int(n)` on a real
number. -/
def truncQ (q : ℚ) : ℤ :=
  Int.tdiv q.num (q.den : ℤ)

/-- The product `res = 1; for k in range(2, ni + 1): res *= k`
computed by the inner `fact` of both evaluators. -/
def factLoop (ni : ℕ) : ℕ :=
  (List.range' 2 (ni - 1)).foldl (fun a k => a * k) 1

/-- The inner closure `fact(n)` of `safe_eval`
(src/advanced_birthday_equation.py, lines 112-124) and of
`evaluate_expression` (src/birthday_equation.py, lines 66-80), on a
real argument: `int(n)` truncates toward zero and never raises here;
a truncation below 0 or above 12 raises `ValueError`. -/
def fact_eval (q : ℚ) : Except PyExc ℚ :=
  let ni := truncQ q
  if ni < 0 then .error .valueErr
  else if 12 < ni then .error .valueErr
  else .ok ((factLoop ni.toNat : ℕ) : ℚ)

/-- Integer power computed through `Nat.pow` on the absolute value
(so that evaluation, in the interpreter and in the kernel, uses the
fast binary arithmetic on `ℕ` rather than the linear `npowRec`).
`intPow_eq_pow` below proves it equal to the mathematical power. -/
def intPow (a : ℤ) (k : ℕ) : ℤ :=
  let m : ℕ := a.natAbs ^ k
  if a < 0 ∧ k % 2 = 1 then -(m : ℤ) else (m : ℤ)

/-- Rational power with an integer exponent, computed on numerator and
denominator (`qzpow_eq_zpow` below proves it equal to `zpow`). -/
def qzpow (p : ℚ) (z : ℤ) : ℚ :=
  if 0 ≤ z then
    (intPow p.num z.toNat : ℚ) / ((p.den ^ z.toNat : ℕ) : ℚ)
  else
    (((p.den ^ z.natAbs : ℕ) : ℚ)) / (intPow p.num z.natAbs : ℚ)

/-- Bound of `float(x)` conversion: converting an integer whose
magnitude reaches `2 ^ 1024` raises `OverflowError` (the exact IEEE
cutoff `(2 - 2 ^ (-52)) * 2 ^ 1023` is idealized to `2 ^ 1024`; no
generated value falls between the two in any run proved about here). -/
def floatMax : ℚ := ((2 ^ 1024 : ℕ) : ℚ)

/-- The inner closure `root(a, b) = float(a) ** (1.0 / float(b))`
(src/advanced_birthday_equation.py, lines 126-129): a zero `b` raises
`ZeroDivisionError` before anything else; `float` of a complex value
raises `TypeError`; `float` of an out-of-range integer raises
`OverflowError`; a negative base under a non-integral exponent gives a
complex value; exact results are kept exact (`b = 1`, or base `0` or
`1`), all remaining finite real results are abstracted to `irr`. -/
def root_eval (a b : PyVal) : Except PyExc PyVal :=
  if b = .num 0 then .error .zeroDiv
  else
    match a with
    | .cplx => .error .typeErr
    | .irr r =>
        match b with
        | .cplx => .error .typeErr
        | b => .ok (.irr (.rroot r (rv b)))
    | .num p =>
        if floatMax ≤ |p| then .error .overflow
        else
          match b with
          | .cplx => .error .typeErr
          | .irr s => if p < 0 then .ok .cplx else .ok (.irr (.rroot (.rat p) s))
          | .num q =>
              if floatMax ≤ |q| then .error .overflow
              else
              let e : ℚ := 1 / q
              if p = 0 then
                (if 0 < e then .ok (.num 0) else .error .zeroDiv)
              else if p < 0 then
                (if e.den = 1 then .ok (.num (qzpow p e.num)) else .ok .cplx)
              else if p = 1 then .ok (.num 1)
              else if e.den = 1 then .ok (.num (qzpow p e.num))
              else .ok (.irr (.rroot (.rat p) (.rat q)))

/-- Evaluation of one binary operator on two values, following
Python's numeric semantics on the idealized value domain: complex
values are contagious, otherwise inexact reals are contagious; `/`
raises `ZeroDivisionError` exactly on a divisor equal to `0`; `**`
with an integral exponent is exact (a zero base under a negative
exponent raises `ZeroDivisionError`), and with a fractional exponent
gives a complex value on a negative base, `1` on base `1`, `0` on base
`0`, and an inexact real otherwise. -/
def binOp_eval (op : PyOp) (a b : PyVal) : Except PyExc PyVal :=
  match op with
  | .add | .sub | .mul =>
      match a, b with
      | .cplx, _ | _, .cplx => .ok .cplx
      | .num p, .num q =>
          .ok (.num (match op with | .sub => p - q | .mul => p * q | _ => p + q))
      | a, b =>
          .ok (.irr (match op with
            | .sub => .rsub (rv a) (rv b)
            | .mul => .rmul (rv a) (rv b)
            | _ => .radd (rv a) (rv b)))
  | .div =>
      match b with
      | .num q =>
          if q = 0 then .error .zeroDiv
          else
            match a with
            | .num p => .ok (.num (p / q))
            | .irr r => .ok (.irr (.rdiv r (.rat q)))
            | .cplx => .ok .cplx
      | .irr s =>
          match a with
          | .cplx => .ok .cplx
          | a => .ok (.irr (.rdiv (rv a) s))
      | .cplx => .ok .cplx
  | .pow =>
      match b with
      | .cplx => .ok .cplx
      | .irr s =>
          match a with
          | .cplx => .ok .cplx
          | .num p => if p < 0 then .ok .cplx else .ok (.irr (.rpow (.rat p) s))
          | .irr r => .ok (.irr (.rpow r s))
      | .num q =>
          match a with
          | .cplx => .ok .cplx
          | .irr r => if q = 0 then .ok (.num 1) else .ok (.irr (.rpow r (.rat q)))
          | .num p =>
              if q.den = 1 then
                if q.num < 0 ∧ p = 0 then .error .zeroDiv
                else .ok (.num (qzpow p q.num))
              else if p < 0 then .ok .cplx
              else if p = 0 then (if 0 < q then .ok (.num 0) else .error .zeroDiv)
              else if p = 1 then .ok (.num 1)
              else .ok (.irr (.rpow (.rat p) (.rat q)))
  | .root => root_eval a b

/-- Structural evaluation of a candidate expression, modelling
Python's `eval` of the assembled string under the restricted
environment: literals, `fact(...)` literals, parenthesized groups,
binary operators (operands evaluated left to right), and `root(...)`
calls (arguments evaluated left to right). -/
def evalExpr : PyExpr → Except PyExc PyVal
  | .lit n => .ok (.num n)
  | .factApp n => (fact_eval (n : ℚ)).map PyVal.num
  | .paren e => evalExpr e
  | .bin op l r => do
      let vl ← evalExpr l
      let vr ← evalExpr r
      binOp_eval op vl vr
  | .rootCall a b => do
      let va ← evalExpr a
      let vb ← evalExpr b
      root_eval va vb

/-- The exception classes caught by the advanced `safe_eval`
(src/advanced_birthday_equation.py, line 149):
`(ZeroDivisionError, OverflowError, ValueError, SyntaxError)`.
`TypeError` is absent from this tuple. -/
def advCaught : PyExc → Bool
  | .zeroDiv => true
  | .overflow => true
  | .valueErr => true
  | .synErr => true
  | .typeErr => false

/-- Model of `safe_eval` (src/advanced_birthday_equation.py, lines 105-150):
evaluate, keep a finite `int`/`float` result converted by
`float(result)` (which raises a caught `OverflowError` on an
out-of-range integer), drop a complex result (`isinstance` test), and
catch exactly the four listed exception classes — an uncaught
exception (`TypeError`) propagates to the caller.  `.ok none` models
the Python return value `None`. -/
def safe_eval (e : PyExpr) : Except PyExc (Option PyVal) :=
  match evalExpr e with
  | .ok v =>
      match v with
      | .cplx => .ok none
      | .irr r => .ok (some (.irr r))
      | .num q => if floatMax ≤ |q| then .ok none else .ok (some (.num q))
  | .error exc => if advCaught exc then .ok none else .error exc

/-! ### Expression generation (`generate_all_expressions`) -/

/-- Token variants per number (src/advanced_birthday_equation.py,
lines 172-178 and 223-229): the factorial variant is offered exactly
for a single digit `0 ≤ num ≤ 9`. -/
def tokenOptions (num : ℕ) : List Tok :=
  if num ≤ 9 then [.plain num, .factT num] else [.plain num]

/-- Cartesian product (`itertools.product`) over a list of option lists, rightmost factor
varying fastest. -/
def listProd : List (List Tok) → List (List Tok)
  | [] => [[]]
  | l :: ls => l.flatMap (fun x => (listProd ls).map (fun rest => x :: rest))

/-- Operator sequences, `itertools.product(OPERATORS, repeat = n)`, in the same order. -/
def opSeqs : ℕ → List (List PyOp)
  | 0 => [[]]
  | n + 1 =>
      [PyOp.add, .sub, .mul, .div, .pow, .root].flatMap
        (fun op => (opSeqs n).map (fun rest => op :: rest))

/-- Strategy 1 (no extra parentheses): the flat string
`t0 op0 t1 op1 ...` with `^` as `**` and `root` wrapping the running
string as `root(expr, token)` (src/advanced_birthday_equation.py,
lines 184-192); the parse tree follows Python's precedence via
`attachOp`. -/
def buildNatural (toks : List Tok) (ops : List PyOp) : PyExpr :=
  match toks with
  | [] => .lit 0
  | t0 :: rest =>
      (ops.zip rest).foldl
        (fun e p =>
          match p with
          | (.root, t) => .rootCall e (tokE t)
          | (op, t) => attachOp e op (tokE t))
        (tokE t0)

/-- Strategy 2 (full left-associative parenthesization,
src/advanced_birthday_equation.py, lines 200-207).  The first step
interpolates the operator name into `"(t0 op t1)"` verbatim, so an
initial `root` operator yields the unparseable text `"(a root b)"`
(modelled as `none`; `eval` then raises a `SyntaxError`, which
`safe_eval` catches, silently discarding the candidate). -/
def buildFullParen (toks : List Tok) (ops : List PyOp) : Option PyExpr :=
  match toks, ops with
  | t0 :: t1 :: rest, op0 :: opsRest =>
      if op0 = .root then none
      else some ((opsRest.zip rest).foldl
        (fun e p =>
          match p with
          | (.root, t) => .rootCall e (tokE t)
          | (op, t) => .paren (.bin op e (tokE t)))
        (.paren (.bin op0 (tokE t0) (tokE t1))))
  | _, _ => none

/-- The stream of candidate expressions built for two or more numbers,
in the order the Python loops evaluate them
(src/advanced_birthday_equation.py, lines 181-211): outer loop over
token choices, inner loop over operator sequences, strategy 1 followed
— when there are more than two numbers — by strategy 2.  A strategy-2
candidate whose text is unparseable (leading `root` operator) is
omitted from the stream: evaluating it returns `None` via a caught
`SyntaxError`, so omission is observationally identical. -/
def genCandidates (numbers : List ℕ) : List PyExpr :=
  (listProd (numbers.map tokenOptions)).flatMap (fun choice =>
    (opSeqs (numbers.length - 1)).flatMap (fun ops =>
      buildNatural choice ops ::
        (if 2 < numbers.length then
          (match buildFullParen choice ops with
           | some e2 => [e2]
           | none => [])
         else [])))

/-- Evaluate a candidate stream in order with `safe_eval`, collecting
the `(expression, value)` pairs of the candidates that produce a value
(`result is not None`); an uncaught exception propagates at the
candidate that raises it, discarding the rest of the stream, exactly
as in the Python loops.  The accumulator is kept reversed so that the
recursion stays shallow. -/
def evalCandidates : List PyExpr → List (PyExpr × PyVal) →
    Except PyExc (List (PyExpr × PyVal))
  | [], acc => .ok acc.reverse
  | e :: rest, acc =>
      match safe_eval e with
      | .error exc => .error exc
      | .ok none => evalCandidates rest acc
      | .ok (some v) => evalCandidates rest ((e, v) :: acc)

/-- Keep-first deduplication of `(expression, value)` pairs: the
Python code inserts each surviving pair into a `set` as it goes, which
has no effect on any later evaluation, so the model deduplicates the
collected stream afterwards (the model keeps first-insertion order; a
Python `set` has no specified order, and no claim depends on one). -/
def dedupPairs : List (PyExpr × PyVal) → List (PyExpr × PyVal) →
    List (PyExpr × PyVal)
  | [], seen => seen.reverse
  | p :: rest, seen =>
      if p ∈ seen then dedupPairs rest seen else dedupPairs rest (p :: seen)

/-- Model of `generate_all_expressions` (src/advanced_birthday_equation.py,
lines 152-213).  A single number yields its literal (converted by
`float`, whose `OverflowError` here is uncaught) plus, for a single
digit with factorial at most `1000000`, its factorial literal.  For
two or more numbers, the candidate stream is evaluated in loop order
and the surviving pairs form the result set. -/
def generate_all_expressions (numbers : List ℕ) :
    Except PyExc (List (PyExpr × PyVal)) :=
  match numbers with
  | [num] =>
      if floatMax ≤ (num : ℚ) then .error .overflow
      else
        let base := [((PyExpr.lit num : PyExpr), PyVal.num num)]
        if num ≤ 9 ∧ Nat.factorial num ≤ 1000000 then
          .ok (base ++ [(.factApp num, .num (Nat.factorial num))])
        else .ok base
  | _ =>
      (evalCandidates (genCandidates numbers) []).map (fun l => dedupPairs l [])

/-- Decision procedure for the tolerance comparisons that involve at
least one inexact float: `o a b tol` answers whether the floats
denoted by the symbolic records `a` and `b` lie within `tol` of each
other.  The comparison the interpreter actually performs is one such
function; every matcher below is parameterized by an arbitrary oracle
and every theorem about a matcher quantifies over it, so the theorems
cover the program's run (the concrete runs in this file are evaluated
at explicit oracles). -/
def Oracle : Type := RVal → RVal → ℚ → Bool

/-- The tolerance test `abs(left_val - right_val) <= tolerance` on two
stored values.  Values are compared exactly when both are exact; a
comparison involving an inexact real is referred to the oracle on the
recorded computations.  Complex values never reach this test
(`safe_eval` turns them into `None`). -/
def pyClose (o : Oracle) (a b : PyVal) (tol : ℚ) : Bool :=
  match a, b with
  | .num x, .num y => |x - y| ≤ tol
  | .num x, .irr s => o (.rat x) s tol
  | .irr r, .num y => o r (.rat y) tol
  | .irr r, .irr s => o r s tol
  | _, _ => false

/-- The matching pairs of one (left sides, right sides) combination:
`(left, right, left_value)` for every pair within tolerance, in loop
order (src/advanced_birthday_equation.py, lines 313-317). -/
def matchPairs (o : Oracle) (tolerance : ℚ)
    (lefts rights : List (PyExpr × PyVal)) :
    List (PyExpr × PyExpr × PyVal) :=
  lefts.flatMap (fun lp =>
    rights.filterMap (fun rp =>
      if pyClose o lp.2 rp.2 tolerance then some (lp.1, rp.1, lp.2)
      else none))

/-- One split point of `find_matching_equations`: generate both sides
(left side first, as in the source, so an uncaught exception raised
while generating the left side propagates before the right side is
attempted) and append the matching pairs. -/
def matchSplit (o : Oracle) (tolerance : ℚ) (partition : List ℕ)
    (acc : List (PyExpr × PyExpr × PyVal)) (split : ℕ) :
    Except PyExc (List (PyExpr × PyExpr × PyVal)) := do
  let lefts ← generate_all_expressions (partition.take split)
  let rights ← generate_all_expressions (partition.drop split)
  pure (acc ++ matchPairs o tolerance lefts rights)

/-- All split points `1, ..., len(partition) - 1` of one partition. -/
def matchPartition (o : Oracle) (tolerance : ℚ)
    (acc : List (PyExpr × PyExpr × PyVal)) (partition : List ℕ) :
    Except PyExc (List (PyExpr × PyExpr × PyVal)) :=
  (List.range' 1 (partition.length - 1)).foldlM
    (matchSplit o tolerance partition) acc

/-- Model of `find_matching_equations` (src/advanced_birthday_equation.py,
lines 296-319): for every partition (default `max_groups = 5`) and
every split point, generate both sides and emit every pair of sides
within tolerance. -/
def find_matching_equations (o : Oracle) (digits : List ℕ)
    (tolerance : ℚ) : Except PyExc (List (PyExpr × PyExpr × PyVal)) :=
  (generate_digit_partitions digits 5).foldlM (matchPartition o tolerance) []

/-! ### The basic generator (`src/birthday_equation.py`) -/

/-- Model of `evaluate_expression` (src/birthday_equation.py, lines 37-100):
build the flat expression string from the given tokens and operators
(same construction as strategy 1 of the advanced generator), evaluate
it, reject non-finite or complex results, and catch every raised
exception — the basic generator's `except` tuple
`(ZeroDivisionError, OverflowError, ValueError, TypeError,
SyntaxError)` covers all five modelled exception classes — returning
the result unconverted otherwise. -/
def evaluate_expression (toks : List Tok) (ops : List PyOp) :
    Option PyVal :=
  if (ops.length : ℤ) ≠ (toks.length : ℤ) - 1 then none
  else
    match evalExpr (buildNatural toks ops) with
    | .ok v => match v with | .cplx => none | v => some v
    | .error _ => none

/-- Display text of one token (`str(d)` where `d` is `"1"` or
`"fact(1)"`). -/
def tokStr : Tok → String
  | .plain n => toString n
  | .factT n => "fact(" ++ toString n ++ ")"

/-- Display text of the plain operators. -/
def opStr : PyOp → String
  | .add => "+"
  | .sub => "-"
  | .mul => "*"
  | .div => "/"
  | .pow => "^"
  | .root => "root"

/-- Model of `format_expression` (src/birthday_equation.py, lines 102-117):
the human-readable string, with `^` displayed as `^` and `root`
wrapping the running string. -/
def format_expression (toks : List Tok) (ops : List PyOp) : String :=
  if (ops.length : ℤ) ≠ (toks.length : ℤ) - 1 then ""
  else
    match toks with
    | [] => ""
    | t0 :: rest =>
        (ops.zip rest).foldl
          (fun s p =>
            match p with
            | (.pow, t) => s ++ " ^ " ++ tokStr t
            | (.root, t) => "root(" ++ s ++ "," ++ tokStr t ++ ")"
            | (op, t) => s ++ " " ++ opStr op ++ " " ++ tokStr t)
          (tokStr t0)

/-- State of one `itertools.product` object of operator combinations:
a generator is consumed by its first complete traversal, while the
literal list `[()]` used for a single-token side can be traversed
again and again (src/birthday_equation.py, lines 144-153, where the
operator products are created once per split point, *outside* the
token loops, and therefore exhaust). -/
structure OpGen where
  elems : List (List PyOp)
  isGen : Bool

/-- Traverse an operator iterable: yields its remaining elements and
the state left behind (empty for a generator). -/
def readGen (g : OpGen) : List (List PyOp) × OpGen :=
  (g.elems, if g.isGen then ⟨[], true⟩ else g)

/-- The operator iterable for one side: a fresh
`itertools.product(OPERATORS, repeat = k - 1)` generator for a
multi-token side, the reusable list `[()]` otherwise. -/
def sideOpGen (k : ℕ) : OpGen :=
  if 1 < k then ⟨opSeqs (k - 1), true⟩
  else ⟨[[]], false⟩

/-- Equation triples of the basic generator: display strings and the
shared (left) value. -/
def basicProcess (o : Oracle) (acc : List (String × String × PyVal))
    (lt rt : List Tok) (lops rops : List PyOp) (tol : ℚ) :
    List (String × String × PyVal) :=
  match evaluate_expression lt lops, evaluate_expression rt rops with
  | some lv, some rv =>
      if pyClose o lv rv tol then
        acc ++ [(format_expression lt lops, format_expression rt rops, lv)]
      else acc
  | _, _ => acc

/-- One split point of `generate_equations` (src/birthday_equation.py,
lines 133-170), with the operator-product exhaustion threaded through
the token loops: the left product is read once per (left, right) token
pair, and the right product is read once per left operator sequence. -/
def basicSplit (o : Oracle) (leftDigits rightDigits : List ℕ) (tol : ℚ)
    (acc0 : List (String × String × PyVal)) :
    List (String × String × PyVal) :=
  let ltChoices := listProd (leftDigits.map (fun d => [.plain d, .factT d]))
  let rtChoices := listProd (rightDigits.map (fun d => [.plain d, .factT d]))
  let st := ltChoices.foldl
    (fun (st : OpGen × OpGen × List (String × String × PyVal)) lt =>
      rtChoices.foldl
        (fun st rt =>
          let (lgen, rgen, acc) := st
          let (lopsList, lgen') := readGen lgen
          let inner := lopsList.foldl
            (fun (st2 : OpGen × List (String × String × PyVal)) lops =>
              let (rgen2, acc2) := st2
              let (ropsList, rgen2') := readGen rgen2
              (rgen2', ropsList.foldl
                (fun a rops => basicProcess o a lt rt lops rops tol) acc2))
            (rgen, acc)
          (lgen', inner.1, inner.2))
        st)
    (sideOpGen leftDigits.length, sideOpGen rightDigits.length, acc0)
  st.2.2

/-- Model of `generate_equations` (src/birthday_equation.py, lines 119-172):
every split point of the digit sequence, with factorial token variants
offered for every digit and the operator products created once per
split point. -/
def generate_equations (o : Oracle) (digits : List ℕ) (tolerance : ℚ) :
    List (String × String × PyVal) :=
  (List.range' 1 (digits.length - 1)).foldl
    (fun acc split =>
      basicSplit o (digits.take split) (digits.drop split) tolerance acc)
    []

/-! ### Digit extraction (`__init__` of both generator classes) -/

/-- Digit extraction, `re.findall` of the digit class followed by `int(d)`: the ordered
decimal digits of the input (ASCII decimal digits; the claims speak
only of decimal digit characters). -/
def extract_digits (s : List Char) : List ℕ :=
  s.filterMap (fun c => if c.isDigit then some (c.toNat - '0'.toNat) else none)

/-- The constructor check of both generator classes
(src/birthday_equation.py, lines 29-32): `ValueError` with the
insufficient-digits message when fewer than 3 digits were extracted,
otherwise the digit sequence. -/
def generator_init (s : List Char) : Except String (List ℕ) :=
  let ds := extract_digits s
  if ds.length < 3 then .error "Date must contain at least 3 digits"
  else .ok ds

/-! ### The group-last-two string builder -/

/-- Strategy 4 of `generate_with_custom_grouping`
(src/advanced_birthday_equation.py, lines 281-285), reproduced at
string level: the prefix loop runs over `range(len(operators) - 1)`
appending `token_choice[i + 1]`, then the final operator and the
parenthesized pair `(token_choice[-2] last_op token_choice[-1])` are
appended, interpolating the operator names verbatim. -/
def groupLastTwoString (tokens operators : List String) : String :=
  let pre := (List.range (operators.length - 1)).foldl
    (fun g i =>
      g ++ " " ++ operators.getD i "" ++ " " ++ tokens.getD (i + 1) "")
    (tokens.getD 0 "")
  let lastOp := operators.getLastD ""
  pre ++ " " ++ lastOp ++ " (" ++ tokens.getD (tokens.length - 2) "" ++ " " ++
    lastOp ++ " " ++ tokens.getLastD "" ++ ")"

/-- Decidable equality of `Except` results, used to evaluate concrete
runs of the engine. -/
instance {ε α : Type} [DecidableEq ε] [DecidableEq α] :
    DecidableEq (Except ε α)
  | .ok a, .ok b =>
      if h : a = b then .isTrue (by rw [h])
      else .isFalse (by intro hc; cases hc; exact h rfl)
  | .ok _, .error _ => .isFalse (by intro hc; cases hc)
  | .error _, .ok _ => .isFalse (by intro hc; cases hc)
  | .error a, .error b =>
      if h : a = b then .isTrue (by rw [h])
      else .isFalse (by intro hc; cases hc; exact h rfl)

/-- Check that every split point of a partition generates both of its
sides without an uncaught exception (used to organize the analysis of
concrete runs of `find_matching_equations`). -/
def partitionSidesOk (p : List ℕ) : Bool :=
  (List.range' 1 (p.length - 1)).all (fun s =>
    (generate_all_expressions (p.take s)).isOk &&
    (generate_all_expressions (p.drop s)).isOk)

/-- The per-equation soundness invariant carried through the matcher:
each accumulated triple stores the evaluated left value and matched a
right value within tolerance. -/
def eqnGood (o : Oracle) (t : ℚ) (x : PyExpr × PyExpr × PyVal) : Prop :=
  safe_eval x.1 = .ok (some x.2.2) ∧
    ∃ vr, safe_eval x.2.1 = .ok (some vr) ∧ pyClose o x.2.2 vr t = true

/-! ### Helper lemmas -/

set_option maxRecDepth 8000

set_option exponentiation.threshold 3000000

theorem exists_ok_of_isOk {ε α : Type} {x : Except ε α}
    (h : x.isOk = true) : ∃ out, x = .ok out := by
  cases x with
  | ok a => exact ⟨a, rfl⟩
  | error e => simp [Except.isOk, Except.toBool] at h

theorem isOk_of_eq_ok {ε α : Type} {x : Except ε α} {out : α}
    (h : x = .ok out) : x.isOk = true := by
  subst h; rfl

/-- An `Except`-valued left fold succeeds when every step succeeds on
every accumulator. -/
theorem foldlM_ok {α β : Type} {f : β → α → Except PyExc β} :
    ∀ (l : List α), (∀ acc x, x ∈ l → ∃ out, f acc x = .ok out) →
      ∀ acc, ∃ out, List.foldlM f acc l = .ok out := by
  intro l
  induction l with
  | nil => intro _ acc; exact ⟨acc, rfl⟩
  | cons x xs ih =>
      intro h acc
      obtain ⟨out, hout⟩ := h acc x (List.mem_cons_self x xs)
      obtain ⟨res, hres⟩ := ih (fun a y hy => h a y (List.mem_cons_of_mem x hy)) out
      refine ⟨res, ?_⟩
      rw [List.foldlM_cons, hout]
      exact hres

/-- An `Except`-valued left fold raises the error of the first failing
element when all elements before it succeed. -/
theorem foldlM_error {α β : Type} {f : β → α → Except PyExc β} {e : PyExc} :
    ∀ (l₁ : List α) (x : α) (l₂ : List α),
      (∀ acc y, y ∈ l₁ → ∃ out, f acc y = .ok out) →
      (∀ acc, f acc x = .error e) →
      ∀ acc, List.foldlM f acc (l₁ ++ x :: l₂) = .error e := by
  intro l₁
  induction l₁ with
  | nil =>
      intro x l₂ _ hx acc
      rw [List.nil_append, List.foldlM_cons, hx acc]
      rfl
  | cons y ys ih =>
      intro x l₂ hok hx acc
      obtain ⟨out, hout⟩ := hok acc y (List.mem_cons_self y ys)
      have h2 := ih x l₂ (fun a z hz => hok a z (List.mem_cons_of_mem y hz)) hx out
      rw [List.cons_append, List.foldlM_cons, hout]
      exact h2

/-- Accumulator invariants are preserved along a successful
`Except`-valued left fold. -/
theorem foldlM_inv {α β : Type} {f : β → α → Except PyExc β}
    (P : β → Prop) :
    ∀ (l : List α) (b b' : β),
      (∀ acc x out, x ∈ l → f acc x = .ok out → P acc → P out) →
      List.foldlM f b l = .ok b' → P b → P b' := by
  intro l
  induction l with
  | nil =>
      intro b b' _ hrun hb
      cases hrun
      exact hb
  | cons x xs ih =>
      intro b b' hstep hrun hb
      rw [List.foldlM_cons] at hrun
      cases hfx : f b x with
      | error e =>
          rw [hfx] at hrun
          cases hrun
      | ok mid =>
          rw [hfx] at hrun
          exact ih mid b'
            (fun a y out hy => hstep a y out (List.mem_cons_of_mem x hy))
            hrun (hstep b x mid (List.mem_cons_self x xs) hfx hb)

theorem matchSplit_ok {o : Oracle} {t : ℚ} {p : List ℕ} {s : ℕ}
    {L R : List (PyExpr × PyVal)}
    (hL : generate_all_expressions (p.take s) = .ok L)
    (hR : generate_all_expressions (p.drop s) = .ok R) (acc) :
    matchSplit o t p acc s = .ok (acc ++ matchPairs o t L R) := by
  unfold matchSplit
  rw [hL, hR]
  rfl

theorem matchSplit_error_right {o : Oracle} {t : ℚ} {p : List ℕ} {s : ℕ}
    {e : PyExc} {L : List (PyExpr × PyVal)}
    (hL : generate_all_expressions (p.take s) = .ok L)
    (hR : generate_all_expressions (p.drop s) = .error e) (acc) :
    matchSplit o t p acc s = .error e := by
  unfold matchSplit
  rw [hL, hR]
  rfl

theorem matchPartition_ok_of_sides {p : List ℕ}
    (h : partitionSidesOk p = true) (o : Oracle) (t : ℚ) :
    ∀ acc, ∃ out, matchPartition o t acc p = .ok out := by
  intro acc
  unfold matchPartition
  apply foldlM_ok
  intro a s hs
  have hsides := (List.all_eq_true.mp h) s hs
  rw [Bool.and_eq_true] at hsides
  obtain ⟨L, hL⟩ := exists_ok_of_isOk hsides.1
  obtain ⟨R, hR⟩ := exists_ok_of_isOk hsides.2
  exact ⟨a ++ matchPairs o t L R, matchSplit_ok hL hR a⟩

/-! ### Facts about the concrete run on the digit sequence 1,1,2,2,1
(the five digits of the input string "11221"). -/

theorem parts11221 :
    generate_digit_partitions [1,1,2,2,1] 5 =
      [[11, 221], [112, 21], [1, 1221], [1122, 1], [1, 12, 21],
       [11, 2, 21], [11, 22, 1], [1, 1, 221], [1, 122, 1], [112, 2, 1],
       [1, 1, 2, 21], [1, 1, 22, 1], [1, 12, 2, 1], [11, 2, 2, 1],
       [1, 1, 2, 2, 1]] := by
  with_unfolding_all decide

theorem pOk01 : partitionSidesOk [11, 221] = true := by
  with_unfolding_all decide

theorem pOk02 : partitionSidesOk [112, 21] = true := by
  with_unfolding_all decide

theorem pOk03 : partitionSidesOk [1, 1221] = true := by
  with_unfolding_all decide

theorem pOk04 : partitionSidesOk [1122, 1] = true := by
  with_unfolding_all decide

theorem pOk05 : partitionSidesOk [1, 12, 21] = true := by
  with_unfolding_all decide

theorem pOk06 : partitionSidesOk [11, 2, 21] = true := by
  with_unfolding_all decide

theorem pOk07 : partitionSidesOk [11, 22, 1] = true := by
  with_unfolding_all decide

theorem pOk08 : partitionSidesOk [1, 1, 221] = true := by
  with_unfolding_all decide

theorem pOk09 : partitionSidesOk [1, 122, 1] = true := by
  with_unfolding_all decide

theorem pOk10 : partitionSidesOk [112, 2, 1] = true := by
  with_unfolding_all decide

theorem pOk11 : partitionSidesOk [1, 1, 2, 21] = true := by
  with_unfolding_all decide

theorem pOk12 : partitionSidesOk [1, 1, 22, 1] = true := by
  with_unfolding_all decide

theorem pOk13 : partitionSidesOk [1, 12, 2, 1] = true := by
  with_unfolding_all decide

theorem pOk14 : partitionSidesOk [11, 2, 2, 1] = true := by
  with_unfolding_all decide

theorem genAll_one :
    generate_all_expressions [1] =
      .ok [(.lit 1, .num 1), (.factApp 1, .num 1)] := by
  with_unfolding_all decide

theorem genAll_1221_error :
    generate_all_expressions [1, 2, 2, 1] = .error .typeErr := by
  with_unfolding_all decide

theorem trivial11221_error (o : Oracle) (t : ℚ)
    (acc : List (PyExpr × PyExpr × PyVal)) :
    matchPartition o t acc [1, 1, 2, 2, 1] = .error .typeErr := by
  unfold matchPartition
  have hr : List.range' 1 ([1, 1, 2, 2, 1].length - 1) =
      [] ++ 1 :: [2, 3, 4] := by decide
  rw [hr]
  apply foldlM_error
  · intro _ y hy
    cases hy
  · intro a
    have hL : generate_all_expressions ([1, 1, 2, 2, 1].take 1) =
        .ok [(.lit 1, .num 1), (.factApp 1, .num 1)] := genAll_one
    have hR : generate_all_expressions ([1, 1, 2, 2, 1].drop 1) =
        .error .typeErr := genAll_1221_error
    exact matchSplit_error_right hL hR a

/-- Claim C2 (code_bug): the claim states that every evaluation failure
of a candidate expression is recovered inside `safe_eval` and that
`find_matching_equations` therefore never aborts; in the code, the
`except` tuple of the advanced `safe_eval` omits `TypeError`, so on the
5-digit input 1,1,2,2,1 (input string "11221") the candidate
`root(root(1 - 2,2),1)` — whose inner root yields a complex value that
`float` then rejects — raises an uncaught `TypeError` and the whole
search aborts, for every tolerance and every oracle deciding the
inexact-float comparisons (hence for the comparison the interpreter
performs). -/
theorem C2_evaluation_error_propagates :
    (∀ (o : Oracle) (t : ℚ),
      find_matching_equations o [1, 1, 2, 2, 1] t = .error .typeErr) ∧
    safe_eval (.rootCall (.rootCall (.bin .sub (.lit 1) (.lit 2))
      (.lit 2)) (.lit 1)) = .error .typeErr := by
  constructor
  · intro o t
    unfold find_matching_equations
    rw [parts11221]
    have hok : ∀ (acc : List (PyExpr × PyExpr × PyVal)) (y : List ℕ),
        y ∈ [[11, 221], [112, 21], [1, 1221], [1122, 1], [1, 12, 21],
          [11, 2, 21], [11, 22, 1], [1, 1, 221], [1, 122, 1], [112, 2, 1],
          [1, 1, 2, 21], [1, 1, 22, 1], [1, 12, 2, 1], [11, 2, 2, 1]] →
        ∃ out, matchPartition o t acc y = .ok out := by
      intro acc y hy
      simp only [List.mem_cons, List.not_mem_nil, or_false] at hy
      rcases hy with rfl | rfl | rfl | rfl | rfl | rfl | rfl | rfl | rfl |
        rfl | rfl | rfl | rfl | rfl
      · exact matchPartition_ok_of_sides pOk01 o t acc
      · exact matchPartition_ok_of_sides pOk02 o t acc
      · exact matchPartition_ok_of_sides pOk03 o t acc
      · exact matchPartition_ok_of_sides pOk04 o t acc
      · exact matchPartition_ok_of_sides pOk05 o t acc
      · exact matchPartition_ok_of_sides pOk06 o t acc
      · exact matchPartition_ok_of_sides pOk07 o t acc
      · exact matchPartition_ok_of_sides pOk08 o t acc
      · exact matchPartition_ok_of_sides pOk09 o t acc
      · exact matchPartition_ok_of_sides pOk10 o t acc
      · exact matchPartition_ok_of_sides pOk11 o t acc
      · exact matchPartition_ok_of_sides pOk12 o t acc
      · exact matchPartition_ok_of_sides pOk13 o t acc
      · exact matchPartition_ok_of_sides pOk14 o t acc
    exact foldlM_error
      [[11, 221], [112, 21], [1, 1221], [1122, 1], [1, 12, 21],
        [11, 2, 21], [11, 22, 1], [1, 1, 221], [1, 122, 1], [112, 2, 1],
        [1, 1, 2, 21], [1, 1, 22, 1], [1, 12, 2, 1], [11, 2, 2, 1]]
      [1, 1, 2, 2, 1] [] hok (trivial11221_error o t) []
  · with_unfolding_all decide

/-! ### Soundness of the stored values (claim C4) -/

theorem dedupPairs_mem :
    ∀ (l seen : List (PyExpr × PyVal)) (x : PyExpr × PyVal),
      x ∈ dedupPairs l seen → x ∈ l ∨ x ∈ seen := by
  intro l
  induction l with
  | nil =>
      intro seen x hx
      simp only [dedupPairs, List.mem_reverse] at hx
      exact Or.inr hx
  | cons p rest ih =>
      intro seen x hx
      simp only [dedupPairs] at hx
      by_cases hp : p ∈ seen
      · rw [if_pos hp] at hx
        rcases ih seen x hx with h | h
        · exact Or.inl (List.mem_cons_of_mem p h)
        · exact Or.inr h
      · rw [if_neg hp] at hx
        rcases ih (p :: seen) x hx with h | h
        · exact Or.inl (List.mem_cons_of_mem p h)
        · rcases List.mem_cons.mp h with rfl | h
          · exact Or.inl (List.mem_cons_self x rest)
          · exact Or.inr h

theorem evalCandidates_sound :
    ∀ (stream : List PyExpr) (acc out : List (PyExpr × PyVal)),
      evalCandidates stream acc = .ok out →
      ∀ x ∈ out, safe_eval x.1 = .ok (some x.2) ∨ x ∈ acc := by
  intro stream
  induction stream with
  | nil =>
      intro acc out hrun x hx
      simp only [evalCandidates] at hrun
      cases hrun
      exact Or.inr (List.mem_reverse.mp hx)
  | cons e rest ih =>
      intro acc out hrun x hx
      simp only [evalCandidates] at hrun
      cases hse : safe_eval e with
      | error exc => rw [hse] at hrun; cases hrun
      | ok o =>
          rw [hse] at hrun
          cases o with
          | none => exact ih acc out hrun x hx
          | some v =>
              rcases ih ((e, v) :: acc) out hrun x hx with h | h
              · exact Or.inl h
              · rcases List.mem_cons.mp h with rfl | h
                · exact Or.inl hse
                · exact Or.inr h

theorem truncQ_natCast (n : ℕ) : truncQ (n : ℚ) = n := by
  simp [truncQ, Rat.num_natCast, Rat.den_natCast, Int.tdiv]

theorem factLoop_eq_factorial : ∀ n : ℕ, factLoop n = Nat.factorial n := by
  intro n
  induction n with
  | zero => rfl
  | succ m ih =>
      cases m with
      | zero => rfl
      | succ k =>
          have hr : List.range' 2 (k + 2 - 1) =
              List.range' 2 (k + 1 - 1) ++ [2 + 1 * k] := List.range'_concat 2 k
          unfold factLoop
          rw [hr, List.foldl_append]
          have ihf : (List.range' 2 (k + 1 - 1)).foldl (fun a j => a * j) 1 =
              Nat.factorial (k + 1) := ih
          rw [ihf]
          simp only [List.foldl_cons, List.foldl_nil, Nat.factorial_succ]
          ring

theorem fact_eval_natCast {n : ℕ} (h : n ≤ 12) :
    fact_eval (n : ℚ) = .ok ((Nat.factorial n : ℕ) : ℚ) := by
  unfold fact_eval
  rw [truncQ_natCast]
  rw [if_neg (by omega), if_neg (by exact_mod_cast not_lt.mpr (by exact_mod_cast h))]
  rw [show ((n : ℤ)).toNat = n from Int.toNat_natCast n]
  rw [factLoop_eq_factorial]

theorem safe_eval_lit {n : ℕ} (h : ¬ floatMax ≤ (n : ℚ)) :
    safe_eval (.lit n) = .ok (some (.num n)) := by
  have h0 : safe_eval (.lit n) =
      if floatMax ≤ |(n : ℚ)| then Except.ok none
      else .ok (some (.num n)) := by
    with_unfolding_all rfl
  rw [h0, if_neg (by rwa [abs_of_nonneg (by positivity)])]

theorem safe_eval_factApp {n : ℕ} (h9 : n ≤ 9)
    (hb : Nat.factorial n ≤ 1000000) :
    safe_eval (.factApp n) = .ok (some (.num ((Nat.factorial n : ℕ) : ℚ))) := by
  have h0 : safe_eval (.factApp n) =
      match (fact_eval (n : ℚ)).map PyVal.num with
      | .ok v =>
          match v with
          | .cplx => .ok none
          | .irr r => .ok (some (.irr r))
          | .num q => if floatMax ≤ |q| then .ok none else .ok (some (.num q))
      | .error exc => if advCaught exc then .ok none else .error exc := by
    with_unfolding_all rfl
  rw [h0, fact_eval_natCast (by omega)]
  simp only [Except.map]
  rw [if_neg]
  rw [abs_of_nonneg (by positivity)]
  intro hc
  have h1 : ((Nat.factorial n : ℕ) : ℚ) ≤ ((1000000 : ℕ) : ℚ) := by
    exact_mod_cast hb
  have hp : (1000000 : ℕ) < 2 ^ 1024 := by norm_num
  have h2 : ((1000000 : ℕ) : ℚ) < floatMax := by
    unfold floatMax
    exact_mod_cast hp
  exact absurd (lt_of_lt_of_le (lt_of_le_of_lt h1 h2) hc) (lt_irrefl _)

theorem genAll_sound {numbers : List ℕ} {lst : List (PyExpr × PyVal)}
    (hrun : generate_all_expressions numbers = .ok lst) :
    ∀ x ∈ lst, safe_eval x.1 = .ok (some x.2) := by
  intro x hx
  match numbers, hrun with
  | [num], hrun =>
      simp only [generate_all_expressions] at hrun
      by_cases hf : floatMax ≤ (num : ℚ)
      · rw [if_pos hf] at hrun; cases hrun
      · rw [if_neg hf] at hrun
        by_cases h9 : num ≤ 9 ∧ Nat.factorial num ≤ 1000000
        · rw [if_pos h9] at hrun
          cases hrun
          simp only [List.cons_append, List.nil_append, List.mem_cons,
            List.not_mem_nil, or_false] at hx
          rcases hx with rfl | rfl
          · exact safe_eval_lit hf
          · exact safe_eval_factApp h9.1 h9.2
        · rw [if_neg h9] at hrun
          cases hrun
          simp only [List.mem_cons, List.not_mem_nil, or_false] at hx
          rcases hx with rfl
          exact safe_eval_lit hf
  | [], hrun =>
      simp only [generate_all_expressions] at hrun
      cases hes : evalCandidates (genCandidates []) [] with
      | error e => rw [hes] at hrun; cases hrun
      | ok raw =>
          rw [hes] at hrun
          simp only [Except.map] at hrun
          cases hrun
          rcases dedupPairs_mem raw [] x hx with h | h
          · exact evalCandidates_sound _ _ _ hes x h |>.resolve_right
              (by intro hc; cases hc)
          · cases h
  | n1 :: n2 :: rest, hrun =>
      simp only [generate_all_expressions] at hrun
      cases hes : evalCandidates (genCandidates (n1 :: n2 :: rest)) [] with
      | error e => rw [hes] at hrun; cases hrun
      | ok raw =>
          rw [hes] at hrun
          simp only [Except.map] at hrun
          cases hrun
          rcases dedupPairs_mem raw [] x hx with h | h
          · exact evalCandidates_sound _ _ _ hes x h |>.resolve_right
              (by intro hc; cases hc)
          · cases h

theorem matchPairs_sound {o : Oracle} {t : ℚ}
    {lefts rights : List (PyExpr × PyVal)}
    {x : PyExpr × PyExpr × PyVal} (hx : x ∈ matchPairs o t lefts rights) :
    ∃ lp ∈ lefts, ∃ rp ∈ rights,
      pyClose o lp.2 rp.2 t = true ∧ x = (lp.1, rp.1, lp.2) := by
  unfold matchPairs at hx
  rcases List.mem_flatMap.mp hx with ⟨lp, hlp, hin⟩
  rcases List.mem_filterMap.mp hin with ⟨rp, hrp, heq⟩
  refine ⟨lp, hlp, rp, hrp, ?_⟩
  by_cases hc : pyClose o lp.2 rp.2 t = true
  · rw [if_pos hc] at heq
    cases heq
    exact ⟨hc, rfl⟩
  · rw [if_neg hc] at heq
    cases heq

theorem matchSplit_inv {o : Oracle} {t : ℚ} {p : List ℕ} {s : ℕ}
    {acc out : List (PyExpr × PyExpr × PyVal)}
    (hrun : matchSplit o t p acc s = .ok out)
    (hacc : ∀ x ∈ acc, eqnGood o t x) :
    ∀ x ∈ out, eqnGood o t x := by
  unfold matchSplit at hrun
  cases hL : generate_all_expressions (p.take s) with
  | error e => rw [hL] at hrun; cases hrun
  | ok L =>
      rw [hL] at hrun
      cases hR : generate_all_expressions (p.drop s) with
      | error e => rw [hR] at hrun; cases hrun
      | ok R =>
          rw [hR] at hrun
          cases hrun
          intro x hx
          rcases List.mem_append.mp hx with h | h
          · exact hacc x h
          · rcases matchPairs_sound h with ⟨lp, hlp, rp, hrp, hc, rfl⟩
            exact ⟨genAll_sound hL lp hlp, rp.2,
              genAll_sound hR rp hrp, hc⟩

theorem matchPartition_inv {o : Oracle} {t : ℚ} {p : List ℕ}
    {acc out : List (PyExpr × PyExpr × PyVal)}
    (hrun : matchPartition o t acc p = .ok out)
    (hacc : ∀ x ∈ acc, eqnGood o t x) :
    ∀ x ∈ out, eqnGood o t x := by
  unfold matchPartition at hrun
  exact foldlM_inv (fun eqs => ∀ x ∈ eqs, eqnGood o t x) _ acc out
    (fun a s w _ hstep ha => matchSplit_inv hstep ha) hrun hacc

/-- Claim C4 (confirmed): every equation `(l, r, v)` emitted by
`find_matching_equations` — for every oracle deciding the
inexact-float comparisons, hence in particular for the comparison the
interpreter performs — stores as `v` exactly the value `safe_eval`
gives the left expression, re-evaluates the right expression to a
value `vr`, and the pair `(v, vr)` passed the tolerance test; whenever
both values are exact that test is exactly `|x - y| ≤ tolerance`. -/
theorem C4_equation_tolerance (o : Oracle) (digits : List ℕ)
    (tolerance : ℚ) (eqs : List (PyExpr × PyExpr × PyVal))
    (hrun : find_matching_equations o digits tolerance = .ok eqs)
    (l r : PyExpr) (v : PyVal) (hmem : (l, r, v) ∈ eqs) :
    safe_eval l = .ok (some v) ∧
      ∃ vr, safe_eval r = .ok (some vr) ∧
        pyClose o v vr tolerance = true ∧
        ∀ x y : ℚ, v = .num x → vr = .num y → |x - y| ≤ tolerance := by
  unfold find_matching_equations at hrun
  have hgood : ∀ x ∈ eqs, eqnGood o tolerance x :=
    foldlM_inv (fun es => ∀ x ∈ es, eqnGood o tolerance x) _ [] eqs
      (fun a p w _ hstep ha => matchPartition_inv hstep ha) hrun
      (by intro x hx; cases hx)
  obtain ⟨hl, vr, hr, hc⟩ := hgood (l, r, v) hmem
  refine ⟨hl, vr, hr, hc, ?_⟩
  intro x y hx hy
  subst hx
  subst hy
  simpa [pyClose] using hc

/-- Witness for C4: at the oracle answering every inexact-float
comparison positively, on the digits 1,2,3 of the input "123" with the
default tolerance, the emitted equation `1 + 2 = 3` re-evaluates to
the stored value `3` on the left, the right side re-evaluates, and the
pair passed the tolerance test. -/
theorem C4_equation_tolerance_witness :
    safe_eval (.bin .add (.lit 1) (.lit 2)) = .ok (some (.num 3)) ∧
      ∃ vr, safe_eval (.lit 3) = .ok (some vr) ∧
        pyClose (fun _ _ _ => true) (.num 3) vr (1 / 10000000000 : ℚ) =
          true ∧
        ∀ x y : ℚ, PyVal.num 3 = .num x → vr = .num y →
          |x - y| ≤ (1 / 10000000000 : ℚ) :=
  C4_equation_tolerance (fun _ _ _ => true) [1, 2, 3] (1 / 10000000000)
    ((find_matching_equations (fun _ _ _ => true) [1, 2, 3]
      (1 / 10000000000)).toOption.getD [])
    (by with_unfolding_all decide)
    (.bin .add (.lit 1) (.lit 2)) (.lit 3) (.num 3)
    (by with_unfolding_all decide)

/-! ### Decimal expansions of chunk values (claims C1 and C7) -/

theorem decDigitsAux_congr :
    ∀ (f1 : ℕ), ∀ {n : ℕ}, n ≤ f1 → ∀ {f2 : ℕ}, n ≤ f2 →
      decDigitsAux f1 n = decDigitsAux f2 n := by
  intro f1
  induction f1 with
  | zero =>
      intro n hn f2 _
      interval_cases n
      cases f2 with
      | zero => rfl
      | succ m => simp [decDigitsAux]
  | succ f ih =>
      intro n hn f2 hn2
      by_cases h0 : n = 0
      · subst h0
        cases f2 with
        | zero => simp [decDigitsAux]
        | succ m => simp [decDigitsAux]
      · obtain ⟨f2', rfl⟩ : ∃ m, f2 = m + 1 :=
          ⟨f2 - 1, by omega⟩
        simp only [decDigitsAux, if_neg h0]
        have hd : n / 10 ≤ f := by
          have := Nat.div_lt_self (Nat.pos_of_ne_zero h0) (by norm_num : 1 < 10)
          omega
        have hd2 : n / 10 ≤ f2' := by
          have := Nat.div_lt_self (Nat.pos_of_ne_zero h0) (by norm_num : 1 < 10)
          omega
        rw [ih hd hd2]

theorem decDigitsAux_step {a d : ℕ} (hd : d < 10) (ha : 1 ≤ a) :
    decDigitsAux (10 * a + d) (10 * a + d) = d :: decDigitsAux a a := by
  obtain ⟨m, hm⟩ : ∃ m, 10 * a + d = m + 1 := ⟨10 * a + d - 1, by omega⟩
  rw [hm]
  simp only [decDigitsAux, if_neg (by omega : ¬ m + 1 = 0)]
  have h1 : (m + 1) % 10 = d := by
    rw [← hm]
    omega
  have h2 : (m + 1) / 10 = a := by
    rw [← hm]
    omega
  rw [h1, h2]
  rw [decDigitsAux_congr m (by omega) (le_refl a)]

/-- Running value of the chunk fold starting from accumulator `a`. -/
theorem chunkFold_cons (a d : ℕ) (t : List ℕ) :
    (d :: t).foldl (fun acc x => 10 * acc + x) a =
      t.foldl (fun acc x => 10 * acc + x) (10 * a + d) := rfl

theorem chunkFold_ge (t : List ℕ) : ∀ a : ℕ,
    a ≤ t.foldl (fun acc x => 10 * acc + x) a := by
  induction t with
  | nil => intro a; exact le_refl a
  | cons d t ih =>
      intro a
      calc a ≤ 10 * a + d := by omega
        _ ≤ _ := ih (10 * a + d)

theorem decDigitsAux_chunkFold (t : List ℕ) :
    ∀ a : ℕ, (∀ x ∈ t, x < 10) → 1 ≤ a →
      decDigitsAux (t.foldl (fun acc x => 10 * acc + x) a)
          (t.foldl (fun acc x => 10 * acc + x) a) =
        t.reverse ++ decDigitsAux a a := by
  induction t with
  | nil => intro a _ _; simp
  | cons d t ih =>
      intro a hdig ha
      rw [chunkFold_cons]
      rw [ih (10 * a + d) (fun x hx => hdig x (List.mem_cons_of_mem d hx))
        (by omega)]
      rw [decDigitsAux_step (hdig d (List.mem_cons_self d t)) ha]
      simp

theorem decDigits_single {x : ℕ} (h1 : 1 ≤ x) (h9 : x ≤ 9) :
    decDigits x = [x] := by
  unfold decDigits
  rw [if_neg (by omega)]
  obtain ⟨m, rfl⟩ : ∃ m, x = m + 1 := ⟨x - 1, by omega⟩
  simp only [decDigitsAux, if_neg (by omega : ¬ m + 1 = 0)]
  rw [Nat.mod_eq_of_lt (by omega), Nat.div_eq_of_lt (by omega)]
  cases m with
  | zero => rfl
  | succ k => simp [decDigitsAux]

theorem decDigits_chunkVal {c : List ℕ} (hne : c ≠ [])
    (hdig : ∀ x ∈ c, 1 ≤ x ∧ x ≤ 9) :
    decDigits (chunkVal c) = c := by
  obtain ⟨h, t, rfl⟩ : ∃ h t, c = h :: t := by
    cases c with
    | nil => exact absurd rfl hne
    | cons h t => exact ⟨h, t, rfl⟩
  have hval : chunkVal (h :: t) =
      t.foldl (fun acc x => 10 * acc + x) h := by
    unfold chunkVal
    rw [chunkFold_cons]
    norm_num
  have hh := hdig h (List.mem_cons_self h t)
  have hge : 1 ≤ chunkVal (h :: t) := by
    rw [hval]
    exact le_trans hh.1 (chunkFold_ge t h)
  unfold decDigits
  rw [if_neg (by omega), hval]
  rw [decDigitsAux_chunkFold t h
    (fun x hx => by have := hdig x (List.mem_cons_of_mem h hx); omega) hh.1]
  have hsingle : decDigitsAux h h = [h] := by
    have := decDigits_single hh.1 hh.2
    unfold decDigits at this
    rw [if_neg (by omega)] at this
    have hrev := congrArg List.reverse this
    simpa using hrev
  rw [hsingle]
  simp

/-! ### Structure of the generated partitions -/

/-- Members of the recursive split search are chains of chunk values:
each one consumes the digit suffix exactly, never has more than
`maxGroups - curLen` groups, and every element passes the `≤ 9999`
filter.  The digit-expansion equation holds whenever all digits are
nonzero (so no chunk has a leading zero). -/
theorem splitsFrom_spec (maxGroups : ℕ) :
    ∀ (fuel : ℕ) (rest : List ℕ) (curLen : ℕ) (p : List ℕ),
      rest.length ≤ fuel → p ∈ splitsFrom maxGroups fuel rest curLen →
      (p.length + curLen ≤ maxGroups ∧ (∀ x ∈ p, x ≤ 9999) ∧
        ((∀ x ∈ rest, 1 ≤ x ∧ x ≤ 9) → (p.map decDigits).flatten = rest)) := by
  intro fuel
  induction fuel with
  | zero =>
      intro rest curLen p _ hp
      simp [splitsFrom] at hp
  | succ f ih =>
      intro rest curLen p hlen hp
      cases rest with
      | nil =>
          simp only [splitsFrom] at hp
          by_cases hc : 2 ≤ curLen ∧ curLen ≤ maxGroups
          · rw [if_pos hc] at hp
            simp at hp
            subst hp
            refine ⟨by simpa using hc.2, by simp, by simp⟩
          · rw [if_neg hc] at hp
            cases hp
      | cons d ds =>
          simp only [splitsFrom, List.mem_flatMap] at hp
          obtain ⟨i, hi, hbody⟩ := hp
          split_ifs at hbody with c1 c2 c3
          · cases hbody
          · cases hbody
          · cases hbody
          · rcases List.mem_map.mp hbody with ⟨q, hq, rfl⟩
            have hdrop : ((d :: ds).drop (i + 1)).length ≤ f := by
              simp only [List.length_drop]
              simp only [List.length_cons] at hlen ⊢
              omega
            obtain ⟨ihlen, ihle, ihcat⟩ :=
              ih ((d :: ds).drop (i + 1)) (curLen + 1) q hdrop hq
            refine ⟨by simp only [List.length_cons]; omega, ?_, ?_⟩
            · intro x hx
              rcases List.mem_cons.mp hx with rfl | hx
              · omega
              · exact ihle x hx
            · intro hdig
              have htake : decDigits (chunkVal ((d :: ds).take (i + 1))) =
                  (d :: ds).take (i + 1) := by
                apply decDigits_chunkVal
                · simp
                · intro x hx
                  exact hdig x (List.mem_of_mem_take hx)
              have hdrop2 : (q.map decDigits).flatten =
                  (d :: ds).drop (i + 1) :=
                ihcat (fun x hx => hdig x (List.mem_of_mem_drop hx))
              simp only [List.map_cons, List.flatten_cons, htake, hdrop2]
              exact List.take_append_drop (i + 1) (d :: ds)

theorem dedupKeepFirst_subset {x : List ℕ} :
    ∀ (l acc : List (List ℕ)),
      x ∈ l.foldl (fun a p => if p ∈ a then a else a ++ [p]) acc →
      x ∈ acc ∨ x ∈ l := by
  intro l
  induction l with
  | nil => intro acc hx; exact Or.inl hx
  | cons p rest ih =>
      intro acc hx
      simp only [List.foldl_cons] at hx
      by_cases hp : p ∈ acc
      · rw [if_pos hp] at hx
        rcases ih acc hx with h | h
        · exact Or.inl h
        · exact Or.inr (List.mem_cons_of_mem p h)
      · rw [if_neg hp] at hx
        rcases ih (acc ++ [p]) hx with h | h
        · rcases List.mem_append.mp h with h | h
          · exact Or.inl h
          · simp at h
            subst h
            exact Or.inr (List.mem_cons_self x rest)
        · exact Or.inr (List.mem_cons_of_mem p h)

theorem insertStable_mem {le : List ℕ → List ℕ → Bool} {x y : List ℕ} :
    ∀ l : List (List ℕ), x ∈ insertStable le y l → x = y ∨ x ∈ l := by
  intro l
  induction l with
  | nil =>
      intro hx
      simp [insertStable] at hx
      exact Or.inl hx
  | cons z zs ih =>
      intro hx
      simp only [insertStable] at hx
      by_cases hz : le z y = true
      · rw [if_pos hz] at hx
        rcases List.mem_cons.mp hx with rfl | hx
        · exact Or.inr (List.mem_cons_self x zs)
        · rcases ih hx with h | h
          · exact Or.inl h
          · exact Or.inr (List.mem_cons_of_mem z h)
      · rw [if_neg hz] at hx
        rcases List.mem_cons.mp hx with rfl | hx
        · exact Or.inl rfl
        · exact Or.inr hx

theorem sortStable_subset {le : List ℕ → List ℕ → Bool} {x : List ℕ} :
    ∀ (l acc : List (List ℕ)),
      x ∈ l.foldl (fun a y => insertStable le y a) acc →
      x ∈ acc ∨ x ∈ l := by
  intro l
  induction l with
  | nil => intro acc hx; exact Or.inl hx
  | cons y ys ih =>
      intro acc hx
      simp only [List.foldl_cons] at hx
      rcases ih (insertStable le y acc) hx with h | h
      · rcases insertStable_mem acc h with rfl | h
        · exact Or.inr (List.mem_cons_self x ys)
        · exact Or.inl h
      · exact Or.inr (List.mem_cons_of_mem y h)

/-- Every member of the partition list is a member of the recursive
split search, the trivial all-single-digit partition, or — only for
8-digit inputs — one of the three hand-authored date partitions. -/
theorem generate_digit_partitions_mem {digits : List ℕ} {maxGroups : ℕ}
    {p : List ℕ} (hp : p ∈ generate_digit_partitions digits maxGroups) :
    p ∈ splitsFrom maxGroups digits.length digits 0 ∨ p = digits ∨
      (digits.length = 8 ∧
        (p = [chunkVal (digits.take 2), chunkVal ((digits.drop 2).take 2),
            chunkVal (digits.drop 4)] ∨
         p = [chunkVal (digits.take 1), chunkVal ((digits.drop 1).take 2),
            chunkVal ((digits.drop 3).take 2), chunkVal (digits.drop 5)] ∨
         p = [chunkVal (digits.take 1), chunkVal ((digits.drop 1).take 3),
            chunkVal (digits.drop 4)])) := by
  unfold generate_digit_partitions at hp
  by_cases hlen : digits.length ≤ 1
  · rw [if_pos hlen] at hp
    simp at hp
    exact Or.inr (Or.inl hp)
  · rw [if_neg hlen] at hp
    simp only [sortStable, dedupKeepFirst] at hp
    rcases sortStable_subset _ _ hp with h | h
    · cases h
    rcases dedupKeepFirst_subset _ _ h with h | h
    · cases h
    rcases List.mem_append.mp h with h | h
    · rcases List.mem_append.mp h with h | h
      · exact Or.inl h
      · simp at h
        exact Or.inr (Or.inl h)
    · by_cases h8 : digits.length = 8
      · rw [if_pos h8] at h
        simp only [List.mem_cons, List.not_mem_nil, or_false] at h
        exact Or.inr (Or.inr ⟨h8, h⟩)
      · rw [if_neg h8] at h
        cases h

theorem flatten_map_decDigits_single {digits : List ℕ}
    (hd : ∀ x ∈ digits, 1 ≤ x ∧ x ≤ 9) :
    (digits.map decDigits).flatten = digits := by
  induction digits with
  | nil => rfl
  | cons d ds ih =>
      have hdd := hd d (List.mem_cons_self d ds)
      simp only [List.map_cons, List.flatten_cons,
        decDigits_single hdd.1 hdd.2]
      rw [ih (fun x hx => hd x (List.mem_cons_of_mem d hx))]
      rfl

theorem chunkFold_lt (c : List ℕ) :
    ∀ a : ℕ, (∀ x ∈ c, x ≤ 9) →
      c.foldl (fun acc x => 10 * acc + x) a < (a + 1) * 10 ^ c.length := by
  induction c with
  | nil => intro a _; simpa using Nat.lt_succ_self a
  | cons d t ih =>
      intro a hd
      rw [chunkFold_cons]
      have h1 := ih (10 * a + d) (fun x hx => hd x (List.mem_cons_of_mem d hx))
      have hd9 := hd d (List.mem_cons_self d t)
      calc t.foldl (fun acc x => 10 * acc + x) (10 * a + d) <
            (10 * a + d + 1) * 10 ^ t.length := h1
        _ ≤ (a + 1) * 10 ^ (d :: t).length := by
            simp only [List.length_cons, pow_succ]
            nlinarith [pow_pos (by norm_num : 0 < 10) t.length]

theorem chunkVal_lt (c : List ℕ) (hd : ∀ x ∈ c, x ≤ 9) :
    chunkVal c < 10 ^ c.length := by
  have := chunkFold_lt c 0 hd
  simpa [chunkVal] using this

theorem decDigitsAux_length_le :
    ∀ (fuel n k : ℕ), n ≤ fuel → n < 10 ^ k →
      (decDigitsAux fuel n).length ≤ k := by
  intro fuel
  induction fuel with
  | zero => intro n k hn _; interval_cases n; simp [decDigitsAux]
  | succ f ih =>
      intro n k hn hk
      by_cases h0 : n = 0
      · subst h0; simp [decDigitsAux]
      · simp only [decDigitsAux, if_neg h0, List.length_cons]
        cases k with
        | zero =>
            simp only [pow_zero] at hk
            omega
        | succ k2 =>
            have hd : n / 10 ≤ f := by
              have := Nat.div_lt_self (Nat.pos_of_ne_zero h0)
                (by norm_num : 1 < 10)
              omega
            have hk2 : n / 10 < 10 ^ k2 := by
              rw [Nat.div_lt_iff_lt_mul (by norm_num : 0 < 10)]
              rw [pow_succ] at hk
              exact hk
            have := ih (n / 10) k2 hd hk2
            omega

theorem decDigits_length {n : ℕ} (h : n ≤ 9999) :
    1 ≤ (decDigits n).length ∧ (decDigits n).length ≤ 4 := by
  unfold decDigits
  by_cases h0 : n = 0
  · rw [if_pos h0]; exact ⟨le_refl 1, by norm_num⟩
  · rw [if_neg h0]
    rw [List.length_reverse]
    constructor
    · obtain ⟨m, rfl⟩ : ∃ m, n = m + 1 := ⟨n - 1, by omega⟩
      simp [decDigitsAux, if_neg h0]
    · exact decDigitsAux_length_le n n 4 (le_refl n) (by omega)

theorem decDigits_chunk_of_digits {digits c : List ℕ}
    (hd : ∀ x ∈ digits, 1 ≤ x ∧ x ≤ 9) (hne : c ≠ [])
    (hsub : ∀ x ∈ c, x ∈ digits) :
    decDigits (chunkVal c) = c :=
  decDigits_chunkVal hne (fun x hx => hd x (hsub x hx))

/-- Claim C1, amended (corrected): for every digit sequence whose
digits are all nonzero (so that no group of any partition starts with
a leading zero that `int(...)` would drop), every partition produced
by `generate_digit_partitions` — the recursive splits, the trivial
all-single-digit partition, and the date-shaped partitions for
8-digit inputs — concatenates, digit by digit, back to the original
digit sequence. -/
theorem C1_partition_concat (digits : List ℕ) (maxGroups : ℕ)
    (p : List ℕ) (hd : ∀ x ∈ digits, 1 ≤ x ∧ x ≤ 9)
    (hp : p ∈ generate_digit_partitions digits maxGroups) :
    (p.map decDigits).flatten = digits := by
  rcases generate_digit_partitions_mem hp with h | h | ⟨h8, hdate⟩
  · exact (splitsFrom_spec maxGroups digits.length digits 0 p
      (le_refl _) h).2.2 hd
  · subst h
    exact flatten_map_decDigits_single hd
  · have hlen2 : (digits.take 2).length = 2 := by
      rw [List.length_take]; omega
    have hlen1 : (digits.take 1).length = 1 := by
      rw [List.length_take]; omega
    rcases hdate with rfl | rfl | rfl
    · have hc1 := decDigits_chunk_of_digits hd
        (by intro hc; rw [hc] at hlen2; cases hlen2)
        (fun x hx => List.mem_of_mem_take hx)
      have hc2 := @decDigits_chunk_of_digits digits ((digits.drop 2).take 2) hd
        (by
          intro hc
          have : ((digits.drop 2).take 2).length = 2 := by
            rw [List.length_take, List.length_drop]; omega
          rw [hc] at this; cases this)
        (fun x hx => List.mem_of_mem_drop (List.mem_of_mem_take hx))
      have hc3 := @decDigits_chunk_of_digits digits (digits.drop 4) hd
        (by
          intro hc
          have : (digits.drop 4).length = 4 := by
            rw [List.length_drop]; omega
          rw [hc] at this; cases this)
        (fun x hx => List.mem_of_mem_drop hx)
      simp only [List.map_cons, List.map_nil, List.flatten_cons,
        List.flatten_nil, List.append_nil, hc1, hc2, hc3]
      rw [show digits.drop 4 = (digits.drop 2).drop 2 from
        (List.drop_drop 2 2 digits).symm]
      rw [List.take_append_drop, List.take_append_drop]
    · have hc1 := decDigits_chunk_of_digits hd
        (by intro hc; rw [hc] at hlen1; cases hlen1)
        (fun x hx => List.mem_of_mem_take hx)
      have hc2 := @decDigits_chunk_of_digits digits ((digits.drop 1).take 2) hd
        (by
          intro hc
          have : ((digits.drop 1).take 2).length = 2 := by
            rw [List.length_take, List.length_drop]; omega
          rw [hc] at this; cases this)
        (fun x hx => List.mem_of_mem_drop (List.mem_of_mem_take hx))
      have hc3 := @decDigits_chunk_of_digits digits ((digits.drop 3).take 2) hd
        (by
          intro hc
          have : ((digits.drop 3).take 2).length = 2 := by
            rw [List.length_take, List.length_drop]; omega
          rw [hc] at this; cases this)
        (fun x hx => List.mem_of_mem_drop (List.mem_of_mem_take hx))
      have hc4 := @decDigits_chunk_of_digits digits (digits.drop 5) hd
        (by
          intro hc
          have : (digits.drop 5).length = 3 := by
            rw [List.length_drop]; omega
          rw [hc] at this; cases this)
        (fun x hx => List.mem_of_mem_drop hx)
      simp only [List.map_cons, List.map_nil, List.flatten_cons,
        List.flatten_nil, List.append_nil, hc1, hc2, hc3, hc4]
      rw [show digits.drop 5 = (digits.drop 3).drop 2 from
        (List.drop_drop 2 3 digits).symm]
      rw [List.take_append_drop]
      rw [show digits.drop 3 = (digits.drop 1).drop 2 from
        (List.drop_drop 2 1 digits).symm]
      rw [List.take_append_drop, List.take_append_drop]
    · have hc1 := decDigits_chunk_of_digits hd
        (by intro hc; rw [hc] at hlen1; cases hlen1)
        (fun x hx => List.mem_of_mem_take hx)
      have hc2 := @decDigits_chunk_of_digits digits ((digits.drop 1).take 3) hd
        (by
          intro hc
          have : ((digits.drop 1).take 3).length = 3 := by
            rw [List.length_take, List.length_drop]; omega
          rw [hc] at this; cases this)
        (fun x hx => List.mem_of_mem_drop (List.mem_of_mem_take hx))
      have hc3 := @decDigits_chunk_of_digits digits (digits.drop 4) hd
        (by
          intro hc
          have : (digits.drop 4).length = 4 := by
            rw [List.length_drop]; omega
          rw [hc] at this; cases this)
        (fun x hx => List.mem_of_mem_drop hx)
      simp only [List.map_cons, List.map_nil, List.flatten_cons,
        List.flatten_nil, List.append_nil, hc1, hc2, hc3]
      rw [show digits.drop 4 = (digits.drop 1).drop 3 from
        (List.drop_drop 3 1 digits).symm]
      rw [List.take_append_drop, List.take_append_drop]

/-- Counterexample to claim C1 as stated: from the digit sequence
1,0,5 the Partition Generator emits the partition `[1, 5]` (the chunk
"05" becomes the integer `5`, losing its leading zero), whose
elements' decimal representations concatenate to "15", not "105". -/
theorem C1_partition_concat_cex :
    ([1, 5] ∈ generate_digit_partitions [1, 0, 5] 5) ∧
      ¬ (([1, 5].map decDigits).flatten = ([1, 0, 5] : List ℕ)) := by
  with_unfolding_all decide

/-- Witness for C1: on the all-nonzero digit sequence 1,2,3 the
partition `[12, 3]` concatenates back to the digit sequence. -/
theorem C1_partition_concat_witness :
    (([12, 3].map decDigits).flatten = ([1, 2, 3] : List ℕ)) :=
  C1_partition_concat [1, 2, 3] 5 [12, 3]
    (by with_unfolding_all decide) (by with_unfolding_all decide)

/-- Claim C7, amended (corrected): every partition produced by
`generate_digit_partitions` (for the group caps actually used,
`maxGroups ≥ 4`) either has at most `maxGroups` groups or is the
always-appended trivial all-single-digit partition (which has one
group per digit and so exceeds `maxGroups` on long inputs); and every
element of every partition is at most 9999 and has 1 to 4 decimal
digits. -/
theorem C7_partition_bounds (digits : List ℕ) (maxGroups : ℕ)
    (p : List ℕ) (hmg : 4 ≤ maxGroups) (hlen : 3 ≤ digits.length)
    (hd : ∀ x ∈ digits, x ≤ 9)
    (hp : p ∈ generate_digit_partitions digits maxGroups) :
    (p.length ≤ maxGroups ∨ p = digits) ∧
      ∀ x ∈ p, x ≤ 9999 ∧ 1 ≤ (decDigits x).length ∧
        (decDigits x).length ≤ 4 := by
  rcases generate_digit_partitions_mem hp with h | h | ⟨h8, hdate⟩
  · obtain ⟨hl, hle, _⟩ :=
      splitsFrom_spec maxGroups digits.length digits 0 p (le_refl _) h
    refine ⟨Or.inl (by omega), fun x hx => ?_⟩
    have h9999 := hle x hx
    obtain ⟨ha, hb⟩ := decDigits_length h9999
    exact ⟨h9999, ha, hb⟩
  · subst h
    refine ⟨Or.inr rfl, fun x hx => ?_⟩
    have h9 := hd x hx
    obtain ⟨ha, hb⟩ := @decDigits_length x (by omega)
    exact ⟨by omega, ha, hb⟩
  · have hchunk : ∀ c : List ℕ, (∀ x ∈ c, x ∈ digits) → c.length ≤ 4 →
        chunkVal c ≤ 9999 ∧ 1 ≤ (decDigits (chunkVal c)).length ∧
          (decDigits (chunkVal c)).length ≤ 4 := by
      intro c hsub hclen
      have hlt : chunkVal c < 10 ^ c.length :=
        chunkVal_lt c (fun x hx => hd x (hsub x hx))
      have hpow : (10 : ℕ) ^ c.length ≤ 10 ^ 4 :=
        Nat.pow_le_pow_right (by norm_num) hclen
      have h9999 : chunkVal c ≤ 9999 := by
        have : (10 : ℕ) ^ 4 = 10000 := by norm_num
        omega
      obtain ⟨ha, hb⟩ := decDigits_length h9999
      exact ⟨h9999, ha, hb⟩
    rcases hdate with rfl | rfl | rfl
    · refine ⟨Or.inl (by simp; omega), fun x hx => ?_⟩
      simp only [List.mem_cons, List.not_mem_nil, or_false] at hx
      rcases hx with rfl | rfl | rfl
      · exact hchunk _ (fun x hx => List.mem_of_mem_take hx)
          (by rw [List.length_take]; omega)
      · exact hchunk _
          (fun x hx => List.mem_of_mem_drop (List.mem_of_mem_take hx))
          (by rw [List.length_take]; omega)
      · exact hchunk _ (fun x hx => List.mem_of_mem_drop hx)
          (by rw [List.length_drop]; omega)
    · refine ⟨Or.inl (by simp; omega), fun x hx => ?_⟩
      simp only [List.mem_cons, List.not_mem_nil, or_false] at hx
      rcases hx with rfl | rfl | rfl | rfl
      · exact hchunk _ (fun x hx => List.mem_of_mem_take hx)
          (by rw [List.length_take]; omega)
      · exact hchunk _
          (fun x hx => List.mem_of_mem_drop (List.mem_of_mem_take hx))
          (by rw [List.length_take]; omega)
      · exact hchunk _
          (fun x hx => List.mem_of_mem_drop (List.mem_of_mem_take hx))
          (by rw [List.length_take]; omega)
      · exact hchunk _ (fun x hx => List.mem_of_mem_drop hx)
          (by rw [List.length_drop]; omega)
    · refine ⟨Or.inl (by simp; omega), fun x hx => ?_⟩
      simp only [List.mem_cons, List.not_mem_nil, or_false] at hx
      rcases hx with rfl | rfl | rfl
      · exact hchunk _ (fun x hx => List.mem_of_mem_take hx)
          (by rw [List.length_take]; omega)
      · exact hchunk _
          (fun x hx => List.mem_of_mem_drop (List.mem_of_mem_take hx))
          (by rw [List.length_take]; omega)
      · exact hchunk _ (fun x hx => List.mem_of_mem_drop hx)
          (by rw [List.length_drop]; omega)

/-- Counterexample to claim C7 as stated: from the 7-digit sequence
1,...,7 with the default `maxGroups = 5` the generator emits the
trivial partition with 7 groups, exceeding the group cap. -/
theorem C7_partition_bounds_cex :
    ([1, 2, 3, 4, 5, 6, 7] ∈
        generate_digit_partitions [1, 2, 3, 4, 5, 6, 7] 5) ∧
      ¬ ([1, 2, 3, 4, 5, 6, 7] : List ℕ).length ≤ 5 := by
  with_unfolding_all decide

/-- Witness for C7: the partition `[12, 3]` of the digits 1,2,3 has at
most 5 groups and elements within all bounds. -/
theorem C7_partition_bounds_witness :
    (([12, 3] : List ℕ).length ≤ 5 ∨ ([12, 3] : List ℕ) = [1, 2, 3]) ∧
      ∀ x ∈ ([12, 3] : List ℕ), x ≤ 9999 ∧
        1 ≤ (decDigits x).length ∧ (decDigits x).length ≤ 4 :=
  C7_partition_bounds [1, 2, 3] 5 [12, 3] (by norm_num)
    (by with_unfolding_all decide) (by with_unfolding_all decide)
    (by with_unfolding_all decide)

/-- Claim C3 (code_bug): the group-last-two strategy is meant to
parenthesize only the final two tokens, but the prefix loop of
src/advanced_birthday_equation.py lines 281-285 runs one token too
far and the final operator is interpolated twice, so for tokens
1, 2, 3 and operators +, * the built text is "1 + 2 * (2 * 3)" — the
second token and the final operator appear twice — rather than the
intended "1 + (2 * 3)". -/
theorem C3_group_last_two_duplicates :
    groupLastTwoString ["1", "2", "3"] ["+", "*"] = "1 + 2 * (2 * 3)" ∧
      groupLastTwoString ["1", "2", "3"] ["+", "*"] ≠ "1 + (2 * 3)" := by
  with_unfolding_all decide

theorem truncQ_intCast (n : ℤ) : truncQ (n : ℚ) = n := by
  unfold truncQ
  rw [Rat.num_intCast, Rat.den_intCast]
  exact_mod_cast Int.tdiv_one n

/-- Claim C5, amended (corrected): the evaluator's `fact(n)` first
truncates its real argument toward zero (Python's `int(n)`), and
succeeds exactly when that truncation lies in `[0, 12]`, returning
the factorial of the truncation; in particular, for integer arguments
it succeeds exactly when `0 ≤ n ≤ 12`, but a non-integer argument
such as `5/2` does not fail — it is silently truncated. -/
theorem C5_fact_truncation (q : ℚ) :
    ((∃ v, fact_eval q = .ok v) ↔ 0 ≤ truncQ q ∧ truncQ q ≤ 12) ∧
      (∀ v, fact_eval q = .ok v →
        v = ((Nat.factorial (truncQ q).toNat : ℕ) : ℚ)) ∧
      (∀ n : ℤ, q = (n : ℚ) →
        ((∃ v, fact_eval q = .ok v) ↔ 0 ≤ n ∧ n ≤ 12)) := by
  have hcase : fact_eval q =
      if truncQ q < 0 then .error .valueErr
      else if 12 < truncQ q then .error .valueErr
      else .ok ((factLoop (truncQ q).toNat : ℕ) : ℚ) := rfl
  have hiff : (∃ v, fact_eval q = .ok v) ↔ 0 ≤ truncQ q ∧ truncQ q ≤ 12 := by
    rw [hcase]
    constructor
    · intro ⟨v, hv⟩
      by_cases h1 : truncQ q < 0
      · rw [if_pos h1] at hv; cases hv
      · rw [if_neg h1] at hv
        by_cases h2 : 12 < truncQ q
        · rw [if_pos h2] at hv; cases hv
        · omega
    · intro ⟨h1, h2⟩
      rw [if_neg (by omega), if_neg (by omega)]
      exact ⟨_, rfl⟩
  refine ⟨hiff, ?_, ?_⟩
  · intro v hv
    rw [hcase] at hv
    by_cases h1 : truncQ q < 0
    · rw [if_pos h1] at hv; cases hv
    · rw [if_neg h1] at hv
      by_cases h2 : 12 < truncQ q
      · rw [if_pos h2] at hv; cases hv
      · rw [if_neg h2] at hv
        cases hv
        rw [factLoop_eq_factorial]
  · intro n hn
    subst hn
    rw [hiff, truncQ_intCast]

/-- Counterexample to claim C5 as stated: `fact(5/2)` succeeds
(returning `2 = 2!`, the factorial of the truncation) although `5/2`
is not a non-negative integer at most 12 — the code never rejects
non-integer arguments. -/
theorem C5_fact_truncation_cex :
    fact_eval (5 / 2) = .ok 2 ∧ ((5 : ℚ) / 2).den ≠ 1 := by
  with_unfolding_all decide

/-- Witness for C5: at the integer argument 3 the evaluator's
factorial succeeds. -/
theorem C5_fact_truncation_witness :
    (0 ≤ truncQ 3 ∧ truncQ 3 ≤ 12) ∧ (∃ v, fact_eval 3 = .ok v) :=
  ⟨by with_unfolding_all decide,
   (C5_fact_truncation 3).1.mpr (by with_unfolding_all decide)⟩

/-- Claim C6 (confirmed): a zero second argument to `root` and a zero
divisor both raise `ZeroDivisionError` (for every first operand,
including abstracted inexact and complex values), and `safe_eval`
catches it, so no expression whose evaluation divides by an exact
zero or takes a 0-th root ever produces a value for the result set. -/
theorem C6_zero_divisor_fails :
    (∀ a : PyVal, root_eval a (.num 0) = .error .zeroDiv ∧
      binOp_eval .div a (.num 0) = .error .zeroDiv) ∧
    (∀ e1 e2 : PyExpr, ∀ v1 : PyVal, evalExpr e1 = .ok v1 →
      evalExpr e2 = .ok (.num 0) → ∀ w : PyVal,
        safe_eval (.bin .div e1 e2) ≠ .ok (some w) ∧
          safe_eval (.rootCall e1 e2) ≠ .ok (some w)) := by
  have hroot : ∀ a : PyVal, root_eval a (.num 0) = .error .zeroDiv := by
    intro a
    unfold root_eval
    rw [if_pos rfl]
  have hdiv : ∀ a : PyVal, binOp_eval .div a (.num 0) = .error .zeroDiv := by
    intro a
    cases a <;> simp [binOp_eval]
  refine ⟨fun a => ⟨hroot a, hdiv a⟩, ?_⟩
  intro e1 e2 v1 h1 h2 w
  have hbind : ∀ g : PyVal → PyVal → Except PyExc PyVal,
      ((evalExpr e1).bind fun vl =>
        (evalExpr e2).bind fun vr => g vl vr) = g v1 (.num 0) := by
    intro g
    rw [h1]
    simp only [Except.bind]
    rw [h2]
  have hed : evalExpr (.bin .div e1 e2) = .error .zeroDiv := by
    have h0 : evalExpr (.bin .div e1 e2) =
        (evalExpr e1).bind fun vl =>
          (evalExpr e2).bind fun vr => binOp_eval .div vl vr := rfl
    rw [h0, hbind]
    exact hdiv v1
  have her : evalExpr (.rootCall e1 e2) = .error .zeroDiv := by
    have h0 : evalExpr (.rootCall e1 e2) =
        (evalExpr e1).bind fun vl =>
          (evalExpr e2).bind fun vr => root_eval vl vr := rfl
    rw [h0, hbind]
    exact hroot v1
  constructor
  · intro hc
    unfold safe_eval at hc
    rw [hed] at hc
    cases hc
  · intro hc
    unfold safe_eval at hc
    rw [her] at hc
    cases hc

/-- Witness for C6: dividing by the literal zero and taking a 0-th
root never contribute a value. -/
theorem C6_zero_divisor_fails_witness :
    safe_eval (.bin .div (.lit 1) (.lit 0)) ≠ .ok (some (.num 5)) ∧
      safe_eval (.rootCall (.lit 1) (.lit 0)) ≠ .ok (some (.num 5)) :=
  C6_zero_divisor_fails.2 (.lit 1) (.lit 0) (.num 1)
    (by with_unfolding_all decide) (by with_unfolding_all decide) (.num 5)

/-- Claim C8 (confirmed): for the input string "123" the basic
generator's result list contains the equation pairing the left text
"1 + 2" with the right text "3" at the value 3, for every oracle
deciding the inexact-float comparisons (the only inexact comparison
this run performs before its operator generators exhaust is `1`
against `root(2,3)`; the claimed equation is emitted either way). -/
theorem C8_basic_result_contains :
    ∀ o : Oracle, ("1 + 2", "3", PyVal.num 3) ∈
      generate_equations o (extract_digits ("123".toList))
        (1 / 10000000000) := by
  intro o
  have hrun : generate_equations o (extract_digits ("123".toList))
      (1 / 10000000000) =
      (if o (.rat 1) (.rroot (.rat 2) (.rat 3)) (1 / 10000000000) then
        [("1", "root(2,3)", PyVal.num 1)] else []) ++
      [("1 + 2", "3", PyVal.num 3)] := by
    with_unfolding_all rfl
  rw [hrun]
  cases h : o (.rat 1) (.rroot (.rat 2) (.rat 3)) (1 / 10000000000) <;>
    simp [h]

theorem extract_digits_length (s : List Char) :
    (extract_digits s).length = (s.filter Char.isDigit).length := by
  induction s with
  | nil => rfl
  | cons c cs ih =>
      by_cases hc : c.isDigit
      · simpa [extract_digits, List.filterMap_cons, List.filter_cons, hc]
          using ih
      · simpa [extract_digits, List.filterMap_cons, List.filter_cons, hc]
          using ih

theorem extract_digits_le9 {s : List Char} :
    ∀ d ∈ extract_digits s, d ≤ 9 := by
  intro d hd
  unfold extract_digits at hd
  rcases List.mem_filterMap.mp hd with ⟨c, _, hc⟩
  by_cases hdig : c.isDigit
  · rw [if_pos hdig] at hc
    cases hc
    have hle : c.val ≤ 57 := by
      unfold Char.isDigit at hdig
      rw [Bool.and_eq_true, decide_eq_true_eq, decide_eq_true_eq] at hdig
      exact hdig.2
    have h57 : c.val.toNat ≤ (57 : UInt32).toNat := hle
    have h57n : ((57 : UInt32)).toNat = 57 := rfl
    have hct : c.toNat = c.val.toNat := rfl
    have hzn : ('0' : Char).toNat = 48 := rfl
    omega
  · rw [if_neg hdig] at hc
    cases hc

/-- Claim C9 (confirmed): the generator constructor fails with the
insufficient-digits error exactly when the input contains fewer than
3 decimal digit characters, and otherwise yields the ordered digit
sequence (each extracted digit is a value 0-9, in input order). -/
theorem C9_insufficient_digits (s : List Char) :
    ((generator_init s).isOk = true ↔
        3 ≤ (s.filter Char.isDigit).length) ∧
      (∀ ds, generator_init s = .ok ds →
        ds = extract_digits s ∧ ∀ d ∈ ds, d ≤ 9) := by
  constructor
  · unfold generator_init
    by_cases h3 : (extract_digits s).length < 3
    · rw [if_pos h3]
      simp only [Except.isOk, Except.toBool]
      rw [← extract_digits_length]
      constructor
      · intro hc; cases hc
      · omega
    · rw [if_neg h3]
      simp only [Except.isOk, Except.toBool]
      rw [← extract_digits_length]
      exact ⟨fun _ => by omega, fun _ => trivial⟩
  · intro ds hds
    unfold generator_init at hds
    by_cases h3 : (extract_digits s).length < 3
    · rw [if_pos h3] at hds; cases hds
    · rw [if_neg h3] at hds
      cases hds
      exact ⟨rfl, extract_digits_le9⟩

/-- Witness for C9: the input "09/05/2005" has 8 digit characters, so
construction succeeds and extracts the digits 0,9,0,5,2,0,0,5. -/
theorem C9_insufficient_digits_witness :
    (generator_init ("09/05/2005".toList)).isOk = true ∧
      ([0, 9, 0, 5, 2, 0, 0, 5] =
          extract_digits ("09/05/2005".toList) ∧
        ∀ d ∈ ([0, 9, 0, 5, 2, 0, 0, 5] : List ℕ), d ≤ 9) :=
  ⟨(C9_insufficient_digits ("09/05/2005".toList)).1.mpr
      (by with_unfolding_all decide),
   (C9_insufficient_digits ("09/05/2005".toList)).2 [0, 9, 0, 5, 2, 0, 0, 5]
      (by with_unfolding_all decide)⟩

/-- Claim C10 (confirmed): the advanced token builder offers the
factorial variant exactly for operands that are single digits 0-9;
any operand of value 10 or more gets exactly one token, its plain
literal. -/
theorem C10_token_options (n : ℕ) :
    (Tok.factT n ∈ tokenOptions n ↔ n ≤ 9) ∧
      (10 ≤ n → tokenOptions n = [Tok.plain n]) := by
  constructor
  · constructor
    · intro h
      by_contra h9
      unfold tokenOptions at h
      rw [if_neg (by omega)] at h
      simp at h
    · intro h9
      unfold tokenOptions
      rw [if_pos h9]
      simp
  · intro h10
    unfold tokenOptions
    rw [if_neg (by omega)]

/-- Witness for C10: the digit 5 gets a factorial token; the operand
10 gets only its plain literal. -/
theorem C10_token_options_witness :
    Tok.factT 5 ∈ tokenOptions 5 ∧ tokenOptions 10 = [Tok.plain 10] :=
  ⟨(C10_token_options 5).1.mpr (by norm_num),
   (C10_token_options 10).2 (by norm_num)⟩

/-! ### Correctness of the fast power functions -/

theorem intPow_eq_pow (a : ℤ) (k : ℕ) : intPow a k = a ^ k := by
  unfold intPow
  by_cases h : a < 0 ∧ k % 2 = 1
  · rw [if_pos h]
    obtain ⟨ha, hk⟩ := h
    have hodd : Odd k := Nat.odd_iff.mpr hk
    have h2 : a ^ k < 0 := hodd.pow_neg ha
    have h3 : (a ^ k).natAbs = a.natAbs ^ k := Int.natAbs_pow a k
    omega
  · rw [if_neg h]
    have h2 : 0 ≤ a ^ k := by
      rcases not_and_or.mp h with ha | hk
      · exact pow_nonneg (by omega) k
      · have he : Even k := Nat.even_iff.mpr (by omega)
        exact he.pow_nonneg a
    have h3 : (a ^ k).natAbs = a.natAbs ^ k := Int.natAbs_pow a k
    omega

theorem qzpow_eq_zpow (p : ℚ) (z : ℤ) : qzpow p z = p ^ z := by
  have hbase : ∀ m : ℕ, ((intPow p.num m : ℤ) : ℚ) /
      (((p.den ^ m : ℕ) : ℕ) : ℚ) = p ^ m := by
    intro m
    rw [intPow_eq_pow]
    push_cast
    conv_rhs => rw [← Rat.num_div_den p]
    rw [div_pow]
  unfold qzpow
  by_cases h : 0 ≤ z
  · rw [if_pos h]
    obtain ⟨n, rfl⟩ := Int.eq_ofNat_of_zero_le h
    rw [show ((n : ℤ)).toNat = n from Int.toNat_natCast n]
    rw [hbase n, zpow_natCast]
  · rw [if_neg h]
    have hz : z = -(z.natAbs : ℤ) := by omega
    rw [hz, zpow_neg, zpow_natCast, ← hbase z.natAbs]
    rw [show (-(z.natAbs : ℤ)).natAbs = z.natAbs from by omega]
    rw [inv_div]
